import Mathlib

/-!
Verification of the chained hash table in `chain-hash.c` / `chain-hash.h`
(the CHash API).

The table is embedded shallowly: the `CHash` record mirrors the C struct,
each API function becomes a pure Lean function on it, and paths on which the
C code performs an out-of-bounds access or dereferences a NULL pointer
(undefined behavior) are mapped to `none` in an `Option` result.

The underlying singly linked list (`list`, declared in `linkedlist.h`) is an
external collaborator that is not part of this repository.  Modelled from
the spec: a chain is an ordered sequence container supporting head access,
insertion after a position (`list_insnxt`, returning 0 on success and
nonzero on allocation failure, so that insertion at `list_tail` appends),
removal of the node after a position (`list_remnxt`, handing the removed
value back through the out pointer without invoking the destructor), size
query and in-order traversal.  A chain is therefore modelled as the list of
its stored values.
-/

namespace ChainHash

/-- A chain (bucket) is the ordered list of its stored values. -/
abbrev Chain (V : Type) := List V

/-- The `CHash` record from `chain-hash.h`.  `size` and `buckets` are the
`unsigned int` fields (modelled as naturals; counter wrap-around at 2^32
stored nodes is not modelled), `hash` and `match_` model the caller-supplied
strategy functions `int (*hash)(const void *)` and
`int (*match)(const void *, const void *)` (the C `int` used as a boolean),
and `table` models the `list ** table` bucket array: a slot is `none` when
the corresponding `list *` pointer is NULL.  The `destroy` callback is not
carried as data because no operation modelled here ever invokes it (see the
`destroyed` component of `RemoveOut`). -/
structure CHash (V : Type) where
  size : Nat
  buckets : Nat
  hash : V → Int
  match_ : V → V → Bool
  table : List (Option (Chain V))

/-- The bucket index `tbl->hash(data) % tbl->buckets` as the C code computes
it: the `int` hash result is converted to `unsigned int` (reduction mod
2^32, since `buckets` has type `unsigned int`), then reduced modulo the
bucket count.  Bucket counts are positive by the construction precondition;
for `buckets = 0` the C expression would divide by zero. -/
def cBucket (h : Int) (buckets : Nat) : Nat :=
  (h % (2 ^ 32 : Int)).toNat % buckets

/-- The linear scan of `chash_lookup`: walk the chain from its head and
return the first element `w` with `match(v, w)` truthy, if any. -/
def chainFindFirst (m : V → V → Bool) (v : V) : Chain V → Option V
  | [] => none
  | w :: ws => if m v w then some w else chainFindFirst m v ws

/-- The scan-and-unlink loop of targeted `chash_remove`: walk the chain
tracking the previous node and, at the first element `w` with `match(v, w)`
truthy, unlink exactly that node (`list_remnxt(list, prev, data)`),
returning the removed value and the remaining chain. -/
def chainRemoveFirst (m : V → V → Bool) (v : V) : Chain V → Option (V × Chain V)
  | [] => none
  | w :: ws =>
      if m v w then some (w, ws)
      else
        match chainRemoveFirst m v ws with
        | some (r, ws2) => some (r, w :: ws2)
        | none => none

/-- Model of `chash_lookup(tbl, data)`.  The result is the returned `int` paired with
the final contents of `*data`; `none` models undefined behavior.

Targeted mode (`*data != NULL`): scans bucket `hash(*data) % buckets`; on
the first match sets `*data` to the stored value and returns 1, otherwise
returns 0 leaving `*data` unchanged.  A NULL bucket slot or an out-of-range
slot index makes `list_head(tbl->table[bucket])` undefined.

Arbitrary mode (`*data == NULL`): executes
`*data = list_data(list_head(tbl->table[0])); return 1;` — when bucket 0 is
empty, `list_head` is NULL and `list_data(NULL)` dereferences a null
pointer, so that path is undefined behavior. -/
def chash_lookup (tbl : CHash V) (data : Option V) : Option (Int × Option V) :=
  match data with
  | some v =>
      match tbl.table[cBucket (tbl.hash v) tbl.buckets]? with
      | some (some chain) =>
          match chainFindFirst tbl.match_ v chain with
          | some w => some (1, some w)
          | none => some (0, some v)
      | some none => none
      | none => none
  | none =>
      match tbl.table[0]? with
      | some (some (w :: _)) => some (1, some w)
      | some (some []) => none
      | some none => none
      | none => none

/-- Model of `chash_insert(tbl, data)`.  `appendOk` is the external allocation event:
whether the `list_insnxt` tail append succeeds.  The result is the returned
`int` paired with the table after the call; `none` models undefined
behavior (inherited from the initial `chash_lookup` when the target bucket
slot is NULL or out of range).

Faithfully to the source: a NULL `data` returns -1; a hit in the initial
lookup returns 1 with no mutation; the explicit `tbl->table[bucket] == NULL`
check returns -1 (unreachable after a defined lookup on the same bucket);
on a successful append `size` is incremented; on a failed append `size` is
left alone — and the function returns 0 in either case. -/
def chash_insert (tbl : CHash V) (data : Option V) (appendOk : Bool) :
    Option (Int × CHash V) :=
  match data with
  | none => some (-1, tbl)
  | some v =>
      match chash_lookup tbl (some v) with
      | none => none
      | some (found, _) =>
          if found ≠ 0 then some (1, tbl)
          else
            match tbl.table[cBucket (tbl.hash v) tbl.buckets]? with
            | some none => some (-1, tbl)
            | none => none
            | some (some chain) =>
                if appendOk then
                  some (0, { tbl with
                    table := tbl.table.set (cBucket (tbl.hash v) tbl.buckets)
                      (some (chain ++ [v])),
                    size := tbl.size + 1 })
                else some (0, tbl)

/-- Outcome of a `chash_remove` call: the returned `int`, the table after
the call, the final contents of `*data`, and the list of values passed to
the table's `destroy` callback during the call (always empty: neither
`chash_remove` nor `list_remnxt` invokes the destructor — the removed value
is handed back to the caller). -/
structure RemoveOut (V : Type) where
  ret : Int
  tbl : CHash V
  data : Option V
  destroyed : List V

/-- The bucket scan of arbitrary-mode `chash_remove`:
`for (i = 0; i < buckets; i++) if (list_size(table[i]) > 0) break;`.
`some (some (i, w, ws))` means the first non-empty chain sits at index `i`
with head `w` and tail `ws`; `some none` means every chain is empty (the
loop falls off the end with `i == buckets`); `none` models the undefined
`list_size(NULL)` on a NULL slot encountered during the scan. -/
def scanNonEmpty : List (Option (Chain V)) → Option (Option (Nat × V × Chain V))
  | [] => some none
  | none :: _ => none
  | some [] :: rest =>
      match scanNonEmpty rest with
      | none => none
      | some none => some none
      | some (some (i, w, ws)) => some (some (i + 1, w, ws))
  | some (w :: ws) :: _ => some (some (0, w, ws))

/-- Model of `chash_remove(tbl, data)`; `none` models undefined behavior.

The `size == 0` guard runs first and returns -1 with nothing touched.
Targeted mode (`*data != NULL`): scans bucket `hash(*data) % buckets`,
removes the first matching node, decrements `size`, writes the removed
value to `*data` and returns 0; with no match it returns -1 unchanged.
Arbitrary mode (`*data == NULL`): scans buckets in index order for the
first non-empty chain, removes its head and decrements `size`; if every
chain is empty (impossible when `size` is accurate) the code accesses
`table[buckets]`, out of range, which is undefined. -/
def chash_remove (tbl : CHash V) (data : Option V) : Option (RemoveOut V) :=
  if tbl.size = 0 then some ⟨-1, tbl, data, []⟩
  else
    match data with
    | some v =>
        match tbl.table[cBucket (tbl.hash v) tbl.buckets]? with
        | some (some chain) =>
            match chainRemoveFirst tbl.match_ v chain with
            | some (w, chain2) =>
                some ⟨0, { tbl with
                  table := tbl.table.set (cBucket (tbl.hash v) tbl.buckets)
                    (some chain2),
                  size := tbl.size - 1 }, some w, []⟩
            | none => some ⟨-1, tbl, some v, []⟩
        | some none => none
        | none => none
    | none =>
        match scanNonEmpty tbl.table with
        | some (some (i, w, ws)) =>
            some ⟨0, { tbl with
              table := tbl.table.set i (some ws),
              size := tbl.size - 1 }, some w, []⟩
        | some none => none
        | none => none

/-- The logical state built by a fully successful `chash_init(n, hash,
match, destroy)` call: `size` 0, bucket count `n`, and `n` fresh empty
chains (each created by `list_create(tbl->destroy)` in the init loop).
Allocation failure returns NULL and produces no state; the bucket-array
under-allocation of the source (`calloc(size - 1, ...)`) is modelled
separately by `chash_init_table_slots` and `chash_init_written_slots`. -/
def chash_init (n : Nat) (hash : V → Int) (m : V → V → Bool) : CHash V :=
  { size := 0, buckets := n, hash := hash, match_ := m,
    table := List.replicate n (some ([] : Chain V)) }

/-- Number of `list *` slots allocated for the bucket array by `chash_init`:
the source calls `calloc(size - 1, sizeof(list *))`. -/
def chash_init_table_slots (size : Int) : Int := size - 1

/-- The slot indices written by the initialisation loop of `chash_init`:
`for (int i = 0; i < size; i++) tbl->table[i] = list_create(tbl->destroy);`. -/
def chash_init_written_slots (size : Int) : List Int :=
  (List.range size.toNat).map (fun i => (i : Int))

/-- The chain a slot presents to traversal; a NULL slot contributes nothing
(the C traversal of a NULL slot would be undefined; reachable tables have
no NULL slots). -/
def slotChain (s : Option (Chain V)) : Chain V := s.getD []

/-- The list of values visited by `chash_traverse`: bucket 0 first, each
bucket's chain in insertion order. -/
def chash_traverse (tbl : CHash V) : List V :=
  (tbl.table.map slotChain).flatten

/-- Well-formedness of a constructed table: a positive bucket count, a
bucket array of exactly `buckets` slots, and no NULL slot. -/
def WF (tbl : CHash V) : Prop :=
  0 < tbl.buckets ∧ tbl.table.length = tbl.buckets ∧ ∀ s ∈ tbl.table, s ≠ none

/-- The size invariant: `size` equals the number of values a full traversal
visits. -/
def SizeInv (tbl : CHash V) : Prop :=
  tbl.size = (chash_traverse tbl).length

/-- Every stored value sits in the bucket its hash selects. -/
def Placed (tbl : CHash V) : Prop :=
  ∀ i chain, tbl.table[i]? = some (some chain) →
    ∀ w ∈ chain, cBucket (tbl.hash w) tbl.buckets = i

/-- Consistency of `match` with `hash` (the contract the data model imposes
on the caller-supplied strategies). -/
def Consistent (tbl : CHash V) : Prop :=
  ∀ a b : V, tbl.match_ a b = true → tbl.hash a = tbl.hash b

/-- Tables reachable from construction by any sequence of `chash_insert`
and `chash_remove` calls (with arbitrary arguments and arbitrary
allocation outcomes) that stay clear of undefined behavior. -/
inductive Reach {V : Type} : CHash V → Prop
  | init {n : Nat} (hash : V → Int) (m : V → V → Bool) (hn : 0 < n) :
      Reach (chash_init n hash m)
  | insert {tbl tbl2 : CHash V} {d : Option V} {ok : Bool} {r : Int} :
      Reach tbl → chash_insert tbl d ok = some (r, tbl2) → Reach tbl2
  | remove {tbl : CHash V} {d : Option V} {out : RemoveOut V} :
      Reach tbl → chash_remove tbl d = some out → Reach out.tbl

/-! ### Concrete tables used to evaluate the operations -/

/-- A freshly constructed table with two buckets, the identity hash and
ordinary integer equality as the match predicate. -/
def cTbl0 : CHash Int := chash_init 2 (fun v => v) (fun a b => decide (a = b))

/-- The table `cTbl0` after a successful `chash_insert` of the value 1
(bucket `1 % 2 = 1`). -/
def cTbl1 : CHash Int :=
  { size := 1, buckets := 2, hash := fun v => v,
    match_ := fun a b => decide (a = b), table := [some [], some ([] ++ [1])] }

/-- A two-bucket table whose bucket 0 holds the single value 7. -/
def cTbl7 : CHash Int :=
  { size := 1, buckets := 2, hash := fun v => v,
    match_ := fun a b => decide (a = b), table := [some [7], some []] }

/-- A two-bucket table whose bucket 1 holds the chain `[5, 1]`. -/
def cTbl51 : CHash Int :=
  { size := 2, buckets := 2, hash := fun v => v,
    match_ := fun a b => decide (a = b), table := [some [], some [5, 1]] }

/-- A three-bucket table whose hash function always returns the negative
int -5. -/
def cTblNeg : CHash Int := chash_init 3 (fun _ => -5) (fun a b => decide (a = b))

/-- A freshly constructed table whose match predicate is constantly true
while the hash is the identity: the strategies are NOT consistent
(`match(a,b)` does not imply `hash(a) == hash(b)`). -/
def cTblX : CHash Int := chash_init 2 (fun v => v) (fun _ _ => true)

/-- The table `cTblX` after a successful insert of 0 (bucket 0). -/
def cTblX1 : CHash Int :=
  { size := 1, buckets := 2, hash := fun v => v, match_ := fun _ _ => true,
    table := [some ([] ++ [0]), some []] }

/-- The table `cTblX1` after a successful insert of 1 (bucket 1). -/
def cTblX2 : CHash Int :=
  { size := 2, buckets := 2, hash := fun v => v, match_ := fun _ _ => true,
    table := [some [0], some ([] ++ [1])] }

/-! ### Properties of the chain scans -/

theorem chainFindFirst_eq_none {m : V → V → Bool} {v : V} {c : Chain V} :
    chainFindFirst m v c = none ↔ ∀ u ∈ c, m v u = false := by
  induction c with
  | nil => simp [chainFindFirst]
  | cons w ws ih =>
      by_cases h : m v w = true
      · simp [chainFindFirst, h]
      · simp only [Bool.not_eq_true] at h
        simp [chainFindFirst, h, ih]

theorem chainFindFirst_eq_some {m : V → V → Bool} {v w : V} {c : Chain V}
    (h : chainFindFirst m v c = some w) : w ∈ c ∧ m v w = true := by
  induction c with
  | nil => simp [chainFindFirst] at h
  | cons u us ih =>
      by_cases hu : m v u = true
      · simp [chainFindFirst, hu] at h
        subst h; exact ⟨List.mem_cons_self u us, hu⟩
      · simp only [Bool.not_eq_true] at hu
        simp [chainFindFirst, hu] at h
        obtain ⟨hm, hw⟩ := ih h
        exact ⟨List.mem_cons_of_mem u hm, hw⟩

theorem chainFindFirst_append {m : V → V → Bool} {v : V} {c c2 : Chain V}
    (h : chainFindFirst m v c = none) :
    chainFindFirst m v (c ++ c2) = chainFindFirst m v c2 := by
  induction c with
  | nil => simp
  | cons u us ih =>
      by_cases hu : m v u = true
      · simp [chainFindFirst, hu] at h
      · simp only [Bool.not_eq_true] at hu
        simp [chainFindFirst, hu] at h ⊢
        exact ih h

theorem chainFindFirst_of_mem {m : V → V → Bool} {v w : V} {c : Chain V}
    (hw : w ∈ c) (hm : m v w = true) :
    ∃ u, chainFindFirst m v c = some u := by
  induction c with
  | nil => cases hw
  | cons x xs ih =>
      by_cases hx : m v x = true
      · exact ⟨x, by simp [chainFindFirst, hx]⟩
      · simp only [Bool.not_eq_true] at hx
        rcases List.mem_cons.mp hw with rfl | hw2
        · rw [hx] at hm; cases hm
        · obtain ⟨u, hu⟩ := ih hw2
          exact ⟨u, by simp [chainFindFirst, hx, hu]⟩

theorem chainRemoveFirst_cons_neg {m : V → V → Bool} {v w : V} {ws : Chain V}
    (h : m v w = false) :
    chainRemoveFirst m v (w :: ws) =
      match chainRemoveFirst m v ws with
      | some (r, ws2) => some (r, w :: ws2)
      | none => none := by
  simp [chainRemoveFirst, h]

theorem chainRemoveFirst_eq_none {m : V → V → Bool} {v : V} {c : Chain V} :
    chainRemoveFirst m v c = none ↔ ∀ u ∈ c, m v u = false := by
  induction c with
  | nil => simp [chainRemoveFirst]
  | cons w ws ih =>
      by_cases h : m v w = true
      · simp [chainRemoveFirst, h]
      · simp only [Bool.not_eq_true] at h
        rw [chainRemoveFirst_cons_neg h]
        rcases he : chainRemoveFirst m v ws with _ | ⟨r, ws2⟩
        · simp only [List.forall_mem_cons, h, true_and]
          exact iff_of_true trivial (ih.mp he)
        · simp only []
          constructor
          · intro hc; cases hc
          · intro hall
            have h0 : chainRemoveFirst m v ws = none :=
              ih.mpr (fun u hu => hall u (List.mem_cons_of_mem w hu))
            rw [h0] at he; cases he

theorem chainRemoveFirst_eq_some {m : V → V → Bool} {v w : V} {c c2 : Chain V}
    (h : chainRemoveFirst m v c = some (w, c2)) :
    ∃ pre post, c = pre ++ w :: post ∧ c2 = pre ++ post ∧
      (∀ u ∈ pre, m v u = false) ∧ m v w = true := by
  induction c generalizing c2 with
  | nil => simp [chainRemoveFirst] at h
  | cons x xs ih =>
      by_cases hx : m v x = true
      · rw [chainRemoveFirst, if_pos hx] at h
        simp only [Option.some.injEq, Prod.mk.injEq] at h
        exact ⟨[], c2, by simp [h.1, h.2], by simp, by simp, h.1 ▸ hx⟩
      · simp only [Bool.not_eq_true] at hx
        rw [chainRemoveFirst_cons_neg hx] at h
        rcases he : chainRemoveFirst m v xs with _ | ⟨r, ws2⟩
        · rw [he] at h; cases h
        · rw [he] at h
          simp only [Option.some.injEq, Prod.mk.injEq] at h
          obtain ⟨rfl, rfl⟩ := h
          obtain ⟨pre, post, h1, h2, h3, h4⟩ := ih he
          refine ⟨x :: pre, post, by simp [h1], by simp [h2], ?_, h4⟩
          intro u hu
          rcases List.mem_cons.mp hu with rfl | hu2
          · exact hx
          · exact h3 u hu2

theorem chainRemoveFirst_of_decomp {m : V → V → Bool} {v w : V}
    (pre post : Chain V) (hpre : ∀ u ∈ pre, m v u = false) (hw : m v w = true) :
    chainRemoveFirst m v (pre ++ w :: post) = some (w, pre ++ post) := by
  induction pre with
  | nil => simp [chainRemoveFirst, hw]
  | cons x xs ih =>
      have hx : m v x = false := hpre x (List.mem_cons_self x xs)
      have := ih (fun u hu => hpre u (List.mem_cons_of_mem x hu))
      simp [chainRemoveFirst, hx, this]

theorem scanNonEmpty_eq_some {l : List (Option (Chain V))} {i : Nat} {w : V}
    {ws : Chain V} (h : scanNonEmpty l = some (some (i, w, ws))) :
    l[i]? = some (some (w :: ws)) ∧ ∀ j < i, l[j]? = some (some []) := by
  induction l generalizing i with
  | nil => simp [scanNonEmpty] at h
  | cons s rest ih =>
      rcases s with _ | (_ | ⟨x, xs⟩)
      · simp [scanNonEmpty] at h
      · rcases he : scanNonEmpty (V := V) rest with _ | (_ | ⟨i2, w2, ws2⟩)
        · rw [scanNonEmpty, he] at h; cases h
        · rw [scanNonEmpty, he] at h; simp at h
        · rw [scanNonEmpty, he] at h
          simp only [Option.some.injEq, Prod.mk.injEq] at h
          obtain ⟨rfl, rfl, rfl⟩ := h
          obtain ⟨h1, h2⟩ := ih he
          refine ⟨by simpa using h1, ?_⟩
          intro j hj
          cases j with
          | zero => simp
          | succ j2 => simpa using h2 j2 (by omega)
      · rw [scanNonEmpty] at h
        simp only [Option.some.injEq, Prod.mk.injEq] at h
        obtain ⟨rfl, rfl, rfl⟩ := h
        exact ⟨by simp, fun j hj => absurd hj (by omega)⟩

theorem scanNonEmpty_total {l : List (Option (Chain V))}
    (hs : ∀ s ∈ l, s ≠ none) (hne : (l.map slotChain).flatten ≠ []) :
    ∃ i w ws, scanNonEmpty l = some (some (i, w, ws)) := by
  induction l with
  | nil => simp at hne
  | cons s rest ih =>
      rcases s with _ | (_ | ⟨x, xs⟩)
      · exact absurd rfl (hs none (List.mem_cons_self none rest))
      · have hne2 : (rest.map slotChain).flatten ≠ [] := by
          simpa [slotChain] using hne
        obtain ⟨i, w, ws, hsc⟩ :=
          ih (fun u hu => hs u (List.mem_cons_of_mem _ hu)) hne2
        exact ⟨i + 1, w, ws, by rw [scanNonEmpty, hsc]⟩
      · exact ⟨0, x, xs, rfl⟩

/-! ### Decomposing the traversal around one bucket -/

theorem table_set_decomp {l : List (Option (Chain V))} {i : Nat}
    {c : Option (Chain V)} (c2 : Option (Chain V)) (h : l[i]? = some c) :
    ∃ A B, (l.map slotChain).flatten = A ++ slotChain c ++ B ∧
      ((l.set i c2).map slotChain).flatten = A ++ slotChain c2 ++ B := by
  induction l generalizing i with
  | nil => simp at h
  | cons s rest ih =>
      cases i with
      | zero =>
          simp only [List.getElem?_cons_zero, Option.some.injEq] at h
          subst h
          exact ⟨[], (rest.map slotChain).flatten, by simp, by simp⟩
      | succ j =>
          simp only [List.getElem?_cons_succ] at h
          obtain ⟨A, B, h1, h2⟩ := ih h
          refine ⟨slotChain s ++ A, B, ?_, ?_⟩
          · rw [List.map_cons, List.flatten_cons, h1]
            simp [List.append_assoc]
          · rw [List.set_cons_succ, List.map_cons, List.flatten_cons, h2]
            simp [List.append_assoc]

theorem mem_flatten_table {l : List (Option (Chain V))} {w : V} :
    w ∈ (l.map slotChain).flatten ↔
      ∃ (i : Nat) (chain : Chain V), l[i]? = some (some chain) ∧ w ∈ chain := by
  induction l with
  | nil => simp
  | cons s rest ih =>
      simp only [List.map_cons, List.flatten_cons, List.mem_append, ih]
      constructor
      · rintro (hw | ⟨i, chain, hi, hw⟩)
        · rcases s with _ | c
          · simp [slotChain] at hw
          · exact ⟨0, c, by simp, by simpa [slotChain] using hw⟩
        · exact ⟨i + 1, chain, by simpa using hi, hw⟩
      · rintro ⟨i, chain, hi, hw⟩
        cases i with
        | zero =>
            simp only [List.getElem?_cons_zero, Option.some.injEq] at hi
            subst hi
            exact Or.inl (by simpa [slotChain] using hw)
        | succ j =>
            exact Or.inr ⟨j, chain, by simpa using hi, hw⟩

/-! ### Inversion of the operations -/

theorem lookup_targeted_inv {tbl : CHash V} {v : V} {found : Int} {d2 : Option V}
    (h : chash_lookup tbl (some v) = some (found, d2)) :
    ∃ chain, tbl.table[cBucket (tbl.hash v) tbl.buckets]? = some (some chain) ∧
      ((found = 1 ∧ ∃ w, chainFindFirst tbl.match_ v chain = some w ∧ d2 = some w) ∨
       (found = 0 ∧ chainFindFirst tbl.match_ v chain = none ∧ d2 = some v)) := by
  rw [chash_lookup] at h
  rcases hslot : tbl.table[cBucket (tbl.hash v) tbl.buckets]? with _ | (_ | chain)
  · rw [hslot] at h; simp at h
  · rw [hslot] at h; simp at h
  · rw [hslot] at h
    simp only [] at h
    rcases hf : chainFindFirst tbl.match_ v chain with _ | w
    · rw [hf] at h
      simp only [Option.some.injEq, Prod.mk.injEq] at h
      exact ⟨chain, rfl, Or.inr ⟨h.1.symm, hf, h.2.symm⟩⟩
    · rw [hf] at h
      simp only [Option.some.injEq, Prod.mk.injEq] at h
      exact ⟨chain, rfl, Or.inl ⟨h.1.symm, w, hf, h.2.symm⟩⟩

theorem insert_inv {tbl tbl2 : CHash V} {d : Option V} {ok : Bool} {r : Int}
    (h : chash_insert tbl d ok = some (r, tbl2)) :
    tbl2 = tbl ∨
    ∃ v chain, d = some v ∧
      tbl.table[cBucket (tbl.hash v) tbl.buckets]? = some (some chain) ∧
      chainFindFirst tbl.match_ v chain = none ∧ ok = true ∧ r = 0 ∧
      tbl2 = { tbl with
        table := tbl.table.set (cBucket (tbl.hash v) tbl.buckets)
          (some (chain ++ [v])),
        size := tbl.size + 1 } := by
  rcases d with _ | v
  · rw [chash_insert] at h
    simp only [Option.some.injEq, Prod.mk.injEq] at h
    exact Or.inl h.2.symm
  · rw [chash_insert] at h
    rcases hl : chash_lookup tbl (some v) with _ | ⟨found, d2⟩
    · rw [hl] at h; simp at h
    · rw [hl] at h
      simp only [] at h
      obtain ⟨chain, hslot, hcase⟩ := lookup_targeted_inv hl
      rcases hcase with ⟨hf1, -⟩ | ⟨hf0, hff, -⟩
      · subst hf1
        rw [if_pos (by decide)] at h
        simp only [Option.some.injEq, Prod.mk.injEq] at h
        exact Or.inl h.2.symm
      · subst hf0
        rw [if_neg (by decide)] at h
        rw [hslot] at h
        simp only [] at h
        cases ok
        · simp only [Bool.false_eq_true, if_false] at h
          simp only [Option.some.injEq, Prod.mk.injEq] at h
          exact Or.inl h.2.symm
        · simp only [if_true] at h
          simp only [Option.some.injEq, Prod.mk.injEq] at h
          exact Or.inr ⟨v, chain, rfl, hslot, hff, rfl, h.1.symm, h.2.symm⟩

theorem remove_inv {tbl : CHash V} {d : Option V} {out : RemoveOut V}
    (h : chash_remove tbl d = some out) :
    out.tbl = tbl ∨
    ∃ i pre w post, tbl.size ≠ 0 ∧
      tbl.table[i]? = some (some (pre ++ w :: post)) ∧
      out.tbl = { tbl with table := tbl.table.set i (some (pre ++ post)),
                           size := tbl.size - 1 } := by
  rw [chash_remove.eq_def] at h
  by_cases hz : tbl.size = 0
  · rw [if_pos hz] at h
    simp only [Option.some.injEq] at h
    left; rw [← h]
  · rw [if_neg hz] at h
    rcases d with _ | v
    · simp only [] at h
      rcases hs : scanNonEmpty tbl.table with _ | (_ | ⟨i, w, ws⟩)
      · rw [hs] at h; simp at h
      · rw [hs] at h; simp at h
      · rw [hs] at h
        simp only [Option.some.injEq] at h
        obtain ⟨hi, -⟩ := scanNonEmpty_eq_some hs
        exact Or.inr ⟨i, [], w, ws, hz, by simpa using hi, by rw [← h]; simp⟩
    · simp only [] at h
      rcases hslot : tbl.table[cBucket (tbl.hash v) tbl.buckets]? with _ | (_ | chain)
      · rw [hslot] at h; simp at h
      · rw [hslot] at h; simp at h
      · rw [hslot] at h
        simp only [] at h
        rcases hr : chainRemoveFirst tbl.match_ v chain with _ | ⟨w, chain2⟩
        · rw [hr] at h
          simp only [Option.some.injEq] at h
          left; rw [← h]
        · rw [hr] at h
          simp only [Option.some.injEq] at h
          obtain ⟨pre, post, hc, hc2, -, -⟩ := chainRemoveFirst_eq_some hr
          refine Or.inr ⟨cBucket (tbl.hash v) tbl.buckets, pre, w, post, hz, ?_, ?_⟩
          · rw [hslot, hc]
          · rw [← h, hc2]

/-! ### Invariant preservation along reachable tables -/

theorem flatten_replicate_nil (n : Nat) :
    (List.replicate n ([] : List α)).flatten = [] := by
  induction n with
  | zero => rfl
  | succ k ih => simp [List.replicate_succ, ih]

theorem lt_length_of_getElem? {l : List α} {i : Nat} {a : α}
    (h : l[i]? = some a) : i < l.length := by
  obtain ⟨hl, -⟩ := List.getElem?_eq_some.mp h
  exact hl

theorem insert_fields {tbl tbl2 : CHash V} {d : Option V} {ok : Bool} {r : Int}
    (h : chash_insert tbl d ok = some (r, tbl2)) :
    tbl2.buckets = tbl.buckets ∧ tbl2.hash = tbl.hash ∧
      tbl2.match_ = tbl.match_ := by
  rcases insert_inv h with rfl | ⟨v, chain, -, -, -, -, -, rfl⟩ <;> simp

theorem remove_fields {tbl : CHash V} {d : Option V} {out : RemoveOut V}
    (h : chash_remove tbl d = some out) :
    out.tbl.buckets = tbl.buckets ∧ out.tbl.hash = tbl.hash ∧
      out.tbl.match_ = tbl.match_ := by
  rcases remove_inv h with he | ⟨i, pre, w, post, -, -, he⟩ <;> rw [he] <;> simp

theorem insert_WF {tbl tbl2 : CHash V} {d : Option V} {ok : Bool} {r : Int}
    (h : chash_insert tbl d ok = some (r, tbl2)) (hwf : WF tbl) : WF tbl2 := by
  rcases insert_inv h with rfl | ⟨v, chain, -, hslot, -, -, -, rfl⟩
  · exact hwf
  · obtain ⟨h1, h2, h3⟩ := hwf
    refine ⟨by simpa using h1, by simpa using h2, ?_⟩
    intro s hs
    simp only [] at hs
    rcases List.mem_or_eq_of_mem_set hs with hs2 | rfl
    · exact h3 s hs2
    · simp

theorem remove_WF {tbl : CHash V} {d : Option V} {out : RemoveOut V}
    (h : chash_remove tbl d = some out) (hwf : WF tbl) : WF out.tbl := by
  rcases remove_inv h with he | ⟨i, pre, w, post, -, hslot, he⟩
  · rw [he]; exact hwf
  · obtain ⟨h1, h2, h3⟩ := hwf
    rw [he]
    refine ⟨by simpa using h1, by simpa using h2, ?_⟩
    intro s hs
    simp only [] at hs
    rcases List.mem_or_eq_of_mem_set hs with hs2 | rfl
    · exact h3 s hs2
    · simp

theorem insert_SizeInv {tbl tbl2 : CHash V} {d : Option V} {ok : Bool} {r : Int}
    (h : chash_insert tbl d ok = some (r, tbl2)) (hsz : SizeInv tbl) :
    SizeInv tbl2 := by
  rcases insert_inv h with rfl | ⟨v, chain, -, hslot, -, -, -, rfl⟩
  · exact hsz
  · obtain ⟨A, B, h1, h2⟩ := table_set_decomp (some (chain ++ [v])) hslot
    unfold SizeInv chash_traverse at hsz ⊢
    simp only []
    rw [h1] at hsz
    rw [h2]
    simp only [slotChain, Option.getD_some, List.length_append, List.length_cons,
      List.length_nil] at hsz ⊢
    omega

theorem remove_SizeInv {tbl : CHash V} {d : Option V} {out : RemoveOut V}
    (h : chash_remove tbl d = some out) (hsz : SizeInv tbl) : SizeInv out.tbl := by
  rcases remove_inv h with he | ⟨i, pre, w, post, -, hslot, he⟩
  · rw [he]; exact hsz
  · obtain ⟨A, B, h1, h2⟩ := table_set_decomp (some (pre ++ post)) hslot
    rw [he]
    unfold SizeInv chash_traverse at hsz ⊢
    simp only []
    rw [h1] at hsz
    rw [h2]
    simp only [slotChain, Option.getD_some, List.length_append,
      List.length_cons] at hsz ⊢
    omega

theorem insert_Placed {tbl tbl2 : CHash V} {d : Option V} {ok : Bool} {r : Int}
    (h : chash_insert tbl d ok = some (r, tbl2)) (hp : Placed tbl) :
    Placed tbl2 := by
  rcases insert_inv h with rfl | ⟨v, chain, -, hslot, -, -, -, rfl⟩
  · exact hp
  · intro i chain2 hi w hw
    simp only [] at hi ⊢
    by_cases hib : i = cBucket (tbl.hash v) tbl.buckets
    · subst hib
      rw [List.getElem?_set_self (lt_length_of_getElem? hslot)] at hi
      simp only [Option.some.injEq] at hi
      subst hi
      rcases List.mem_append.mp hw with hw2 | hw2
      · exact hp _ _ hslot w hw2
      · simp only [List.mem_singleton] at hw2
        subst hw2
        rfl
    · rw [List.getElem?_set_ne (fun he => hib he.symm)] at hi
      exact hp _ _ hi w hw

theorem remove_Placed {tbl : CHash V} {d : Option V} {out : RemoveOut V}
    (h : chash_remove tbl d = some out) (hp : Placed tbl) : Placed out.tbl := by
  rcases remove_inv h with he | ⟨i, pre, w0, post, -, hslot, he⟩
  · rw [he]; exact hp
  · rw [he]
    intro i2 chain2 hi w hw
    simp only [] at hi ⊢
    by_cases hib : i2 = i
    · subst hib
      rw [List.getElem?_set_self (lt_length_of_getElem? hslot)] at hi
      simp only [Option.some.injEq] at hi
      subst hi
      refine hp _ _ hslot w ?_
      rcases List.mem_append.mp hw with hw2 | hw2
      · exact List.mem_append.mpr (Or.inl hw2)
      · exact List.mem_append.mpr (Or.inr (List.mem_cons_of_mem w0 hw2))
    · rw [List.getElem?_set_ne (fun he2 => hib he2.symm)] at hi
      exact hp _ _ hi w hw

theorem reach_inv {tbl : CHash V} (h : Reach tbl) :
    WF tbl ∧ SizeInv tbl ∧ Placed tbl := by
  induction h with
  | init hash m hn =>
      refine ⟨⟨hn, by simp [chash_init], ?_⟩, ?_, ?_⟩
      · intro s hs
        simp only [chash_init, List.mem_replicate] at hs
        simp [hs.2]
      · unfold SizeInv chash_traverse chash_init
        simp [flatten_replicate_nil, slotChain]
      · intro i chain hi w hw
        simp only [chash_init] at hi
        rw [List.getElem?_replicate] at hi
        split at hi
        · simp only [Option.some.injEq] at hi
          subst hi
          cases hw
        · cases hi
  | insert hr heq ih =>
      exact ⟨insert_WF heq ih.1, insert_SizeInv heq ih.2.1, insert_Placed heq ih.2.2⟩
  | remove hr heq ih =>
      exact ⟨remove_WF heq ih.1, remove_SizeInv heq ih.2.1, remove_Placed heq ih.2.2⟩

/-! ### Claim theorems -/

/-- C7: for every table with `size == 0` and every argument (targeted or
arbitrary mode), `chash_remove` fails (returns -1) before scanning any
bucket, and the table is unchanged.  The theorem holds for completely
arbitrary tables — even ones with NULL or missing bucket slots, whose scan
would be undefined — precisely because the `size == 0` guard runs first. -/
theorem chash_remove_empty_rejected (tbl : CHash V) (d : Option V)
    (hz : tbl.size = 0) : chash_remove tbl d = some ⟨-1, tbl, d, []⟩ := by
  rw [chash_remove.eq_def, if_pos hz]

/-- Witness for C7 at a fresh two-bucket table and a targeted argument. -/
theorem chash_remove_empty_rejected_witness :
    cTbl0.size = 0 ∧ chash_remove cTbl0 (some 5) = some ⟨-1, cTbl0, some 5, []⟩ :=
  ⟨rfl, chash_remove_empty_rejected cTbl0 (some 5) rfl⟩

/-- C10: for every table with `0 < buckets ≤ INT_MAX` and every value, the
bucket index `hash(value) % buckets` computed by `chash_insert`, targeted
`chash_remove` and targeted `chash_lookup` (all three compute it as
`cBucket (tbl.hash v) tbl.buckets`, see their definitions) lies in
`[0, buckets)` — even when the caller's hash function returns a negative
`int` — because the `int` hash result is converted to `unsigned int` (the
type of the `buckets` field) before the modulo; the result also fits in a
signed 32-bit `int`. -/
theorem cBucket_in_range (tbl : CHash V) (v : V) (h0 : 0 < tbl.buckets)
    (hmax : tbl.buckets ≤ 2 ^ 31 - 1) :
    cBucket (tbl.hash v) tbl.buckets < tbl.buckets ∧
    (cBucket (tbl.hash v) tbl.buckets : Int) < 2 ^ 31 := by
  have h1 : cBucket (tbl.hash v) tbl.buckets < tbl.buckets := Nat.mod_lt _ h0
  refine ⟨h1, ?_⟩
  have h2 : cBucket (tbl.hash v) tbl.buckets < 2 ^ 31 := by omega
  exact_mod_cast h2

/-- Witness for C10 at a table whose hash function returns -5 with three
buckets: the computed bucket index is 2. -/
theorem cBucket_in_range_witness :
    0 < cTblNeg.buckets ∧ cTblNeg.buckets ≤ 2 ^ 31 - 1 ∧
    (cBucket (cTblNeg.hash 0) cTblNeg.buckets < cTblNeg.buckets ∧
      (cBucket (cTblNeg.hash 0) cTblNeg.buckets : Int) < 2 ^ 31) ∧
    cBucket (cTblNeg.hash 0) cTblNeg.buckets = 2 :=
  ⟨by decide, by decide, cBucket_in_range cTblNeg 0 (by decide) (by decide),
    by decide⟩

/-- C4: for every table reachable from construction by any sequence of
insert and remove operations, the `size` field equals the number of values
visited by a full traversal (the sum of the bucket chain lengths). -/
theorem chash_size_invariant {tbl : CHash V} (h : Reach tbl) :
    tbl.size = (chash_traverse tbl).length :=
  (reach_inv h).2.1

/-- Witness for C4 at the reachable table obtained by inserting 1 into a
fresh two-bucket table. -/
theorem chash_size_invariant_witness :
    cTbl1.size = (chash_traverse cTbl1).length := by
  have h0 : Reach cTbl0 :=
    Reach.init (fun v => v) (fun a b => decide (a = b)) (by decide)
  have h1 : chash_insert cTbl0 (some 1) true = some (0, cTbl1) := by rfl
  exact chash_size_invariant (Reach.insert h0 h1)

/-- C1 (code bug): `chash_init(4, ...)` allocates a bucket array of
`chash_init_table_slots 4 = 3` pointer slots (`calloc(size - 1, ...)`),
yet its initialisation loop writes slot 3, which is not below the
allocated slot count — a heap buffer overflow, contradicting the claimed
"exactly bucket_count slots". -/
theorem chash_init_slot_overflow :
    chash_init_table_slots 4 = 3 ∧ (3 : Int) ∈ chash_init_written_slots 4 ∧
    ¬ ((3 : Int) < chash_init_table_slots 4) :=
  ⟨by decide, by decide, by decide⟩

/-- C2 (code bug): inserting a fresh value when the chain append
(`list_insnxt`) fails due to allocation failure makes `chash_insert`
return 0 (success) — not the claimed error result -1 — while the table
(hence its `size`) is left unchanged. -/
theorem chash_insert_append_failure_returns_zero :
    chash_insert cTbl0 (some 3) false = some (0, cTbl0) ∧ (0 : Int) ≠ -1 :=
  ⟨rfl, by decide⟩

/-- C3 (code bug): arbitrary-mode lookup (`*data == NULL`) on a table whose
bucket 0 is empty does not return "found = 0": it reads
`list_data(list_head(tbl->table[0]))` with a NULL head — undefined
behavior, modelled as `none` — and would return 1.  When bucket 0 is
non-empty it does return its head element with found = 1. -/
theorem chash_lookup_arbitrary_eval :
    chash_lookup cTbl0 none = none ∧
    chash_lookup cTbl7 none = some (1, some 7) :=
  ⟨rfl, rfl⟩

/-- C8: for every non-empty table and non-null value reference `v`,
targeted `chash_remove` works on bucket `hash(v) % buckets` (the chain
`chain` of the hypothesis): if the chain splits as `pre ++ w :: post` with
no match in `pre` and a match at `w` — i.e. `w` is the first
match-equivalent element in scan order — the call removes exactly that
node, decrements `size` by one, and hands the removed stored value back
through `*data` without invoking `destroy_fn` (the `destroyed` component
is empty); if no element of that chain matches, the call returns -1
(NotFound) with the table unchanged. -/
theorem chash_remove_targeted (tbl : CHash V) (v : V) (chain : Chain V)
    (hsz : tbl.size ≠ 0)
    (hslot : tbl.table[cBucket (tbl.hash v) tbl.buckets]? = some (some chain)) :
    (∀ pre w post, chain = pre ++ w :: post →
      (∀ u ∈ pre, tbl.match_ v u = false) → tbl.match_ v w = true →
      chash_remove tbl (some v) = some ⟨0, { tbl with
        table := tbl.table.set (cBucket (tbl.hash v) tbl.buckets)
          (some (pre ++ post)),
        size := tbl.size - 1 }, some w, []⟩) ∧
    ((∀ u ∈ chain, tbl.match_ v u = false) →
      chash_remove tbl (some v) = some ⟨-1, tbl, some v, []⟩) := by
  constructor
  · intro pre w post hc hpre hw
    subst hc
    rw [chash_remove.eq_def, if_neg hsz]
    simp only []
    rw [hslot]
    simp only []
    rw [chainRemoveFirst_of_decomp pre post hpre hw]
  · intro hall
    rw [chash_remove.eq_def, if_neg hsz]
    simp only []
    rw [hslot]
    simp only []
    rw [chainRemoveFirst_eq_none.mpr hall]

/-- Witness for C8: removing 1 from the bucket chain `[5, 1]` removes the
second node (the first and only match), leaving `[5]`. -/
theorem chash_remove_targeted_witness :
    chash_remove cTbl51 (some 1) = some ⟨0, { cTbl51 with
      table := cTbl51.table.set (cBucket (cTbl51.hash 1) cTbl51.buckets)
        (some ([5] ++ [])),
      size := cTbl51.size - 1 }, some 1, []⟩ :=
  ((chash_remove_targeted cTbl51 1 [5, 1] (by decide) (by rfl)).1) [5] 1 []
    (by rfl) (by decide) (by decide)

/-- C9: for every table with `size > 0` that is well-formed and satisfies
the size invariant, arbitrary-mode `chash_remove` (NULL value reference)
scans buckets in index order, finds the first non-empty chain at an index
`i < buckets` (so the access is in range), removes that chain's head,
decrements `size` by one, and returns the removed element with return
value 0. -/
theorem chash_remove_arbitrary (tbl : CHash V) (hwf : WF tbl)
    (hsz : SizeInv tbl) (hpos : 0 < tbl.size) :
    ∃ i w ws, i < tbl.buckets ∧ tbl.table[i]? = some (some (w :: ws)) ∧
      (∀ j < i, tbl.table[j]? = some (some [])) ∧
      chash_remove tbl none = some ⟨0, { tbl with
        table := tbl.table.set i (some ws), size := tbl.size - 1 },
        some w, []⟩ := by
  obtain ⟨hb, hlen, hslots⟩ := hwf
  have hslots2 : ∀ s ∈ tbl.table, s ≠ none := hslots
  have hne : (tbl.table.map slotChain).flatten ≠ [] := by
    intro he
    rw [SizeInv, chash_traverse, he] at hsz
    simp at hsz
    omega
  obtain ⟨i, w, ws, hscan⟩ := scanNonEmpty_total hslots2 hne
  obtain ⟨hi, hj⟩ := scanNonEmpty_eq_some hscan
  refine ⟨i, w, ws, ?_, hi, hj, ?_⟩
  · have := lt_length_of_getElem? hi
    omega
  · rw [chash_remove.eq_def, if_neg (by omega)]
    simp only []
    rw [hscan]

/-- Witness for C9: draining the table `[some [], some [1]]` of size 1
removes the head of bucket 1 (bucket 0 is empty). -/
theorem chash_remove_arbitrary_witness :
    ∃ i w ws, i < cTbl1.buckets ∧ cTbl1.table[i]? = some (some (w :: ws)) ∧
      (∀ j < i, cTbl1.table[j]? = some (some [])) ∧
      chash_remove cTbl1 none = some ⟨0, { cTbl1 with
        table := cTbl1.table.set i (some ws), size := cTbl1.size - 1 },
        some w, []⟩ :=
  chash_remove_arbitrary cTbl1
    ⟨by decide, by decide, by decide⟩ (by exact rfl) (by decide)

theorem chainFindFirst_singleton_pos {m : V → V → Bool} {v w : V}
    (h : m v w = true) : chainFindFirst m v [w] = some w := by
  simp [chainFindFirst, h]

theorem insert_success_inv {tbl t1 : CHash V} {v : V}
    (h : chash_insert tbl (some v) true = some (0, t1)) :
    ∃ chain, tbl.table[cBucket (tbl.hash v) tbl.buckets]? = some (some chain) ∧
      chainFindFirst tbl.match_ v chain = none ∧
      t1 = { tbl with
        table := tbl.table.set (cBucket (tbl.hash v) tbl.buckets)
          (some (chain ++ [v])),
        size := tbl.size + 1 } := by
  rw [chash_insert] at h
  rcases hl : chash_lookup tbl (some v) with _ | ⟨found, d2⟩
  · rw [hl] at h; simp at h
  · rw [hl] at h
    simp only [] at h
    obtain ⟨chain, hslot, hcase⟩ := lookup_targeted_inv hl
    rcases hcase with ⟨rfl, -⟩ | ⟨rfl, hff, -⟩
    · rw [if_pos (by decide)] at h
      simp at h
    · rw [if_neg (by decide)] at h
      rw [hslot] at h
      simp only [if_true] at h
      simp only [Option.some.injEq, Prod.mk.injEq] at h
      exact ⟨chain, hslot, hff, h.2.symm⟩

/-- C6: for every table and non-null value `v` (with `hash` and `match`
consistent, and `match` reflexive at `v`, as the spec's data model
requires of an equivalence predicate), a successful actual insert of `v`
followed by a targeted lookup of `v` returns a stored value
match-equivalent to `v`; and the insert followed by the (necessarily
successful) targeted remove of `v` followed by a lookup of `v` returns
empty (found = 0). -/
theorem chash_insert_lookup_roundtrip (tbl t1 : CHash V) (v : V)
    (_hcons : Consistent tbl) (hrefl : tbl.match_ v v = true)
    (hins : chash_insert tbl (some v) true = some (0, t1)) :
    (∃ w, chash_lookup t1 (some v) = some (1, some w) ∧
      w ∈ chash_traverse t1 ∧ tbl.match_ v w = true) ∧
    (∃ t2, chash_remove t1 (some v) = some ⟨0, t2, some v, []⟩ ∧
      chash_lookup t2 (some v) = some (0, some v)) := by
  obtain ⟨chain, hslot, hff, rfl⟩ := insert_success_inv hins
  have hlt : cBucket (tbl.hash v) tbl.buckets < tbl.table.length :=
    lt_length_of_getElem? hslot
  have hall : ∀ u ∈ chain, tbl.match_ v u = false := chainFindFirst_eq_none.mp hff
  have hset : (tbl.table.set (cBucket (tbl.hash v) tbl.buckets)
      (some (chain ++ [v])))[cBucket (tbl.hash v) tbl.buckets]? =
      some (some (chain ++ [v])) := List.getElem?_set_self hlt
  constructor
  · refine ⟨v, ?_, ?_, hrefl⟩
    · rw [chash_lookup]
      simp only []
      rw [hset]
      simp only []
      rw [chainFindFirst_append hff, chainFindFirst_singleton_pos hrefl]
    · exact mem_flatten_table.mpr ⟨_, chain ++ [v], hset, by simp⟩
  · have hremchain : chainRemoveFirst tbl.match_ v (chain ++ [v]) =
        some (v, chain ++ []) :=
      chainRemoveFirst_of_decomp chain [] hall hrefl
    refine ⟨{ tbl with
        table := (tbl.table.set (cBucket (tbl.hash v) tbl.buckets)
          (some (chain ++ [v]))).set (cBucket (tbl.hash v) tbl.buckets)
          (some (chain ++ [])),
        size := tbl.size + 1 - 1 }, ?_, ?_⟩
    · rw [chash_remove.eq_def, if_neg (by simp)]
      simp only []
      rw [hset]
      simp only []
      rw [hremchain]
    · rw [chash_lookup]
      simp only [List.set_set]
      rw [List.getElem?_set_self hlt]
      simp only []
      rw [chainFindFirst_append hff]
      rfl

/-- Witness for C6: inserting 1 into a fresh two-bucket table, looking it
up, removing it and looking it up again. -/
theorem chash_insert_lookup_roundtrip_witness :
    (∃ w, chash_lookup cTbl1 (some 1) = some (1, some w) ∧
      w ∈ chash_traverse cTbl1 ∧ cTbl0.match_ 1 w = true) ∧
    (∃ t2, chash_remove cTbl1 (some 1) = some ⟨0, t2, some 1, []⟩ ∧
      chash_lookup t2 (some 1) = some (0, some 1)) :=
  chash_insert_lookup_roundtrip cTbl0 cTbl1 1
    (fun a b hab => congrArg cTbl0.hash (of_decide_eq_true hab))
    (by decide) (by rfl)

theorem pairwise_insert_middle {α : Type} {R : α → α → Prop} {A C B : List α}
    {v : α} (h : List.Pairwise R (A ++ C ++ B))
    (hv : ∀ w, w ∈ A ++ C ++ B → R w v ∧ R v w) :
    List.Pairwise R (A ++ (C ++ [v]) ++ B) := by
  rw [List.pairwise_append] at h
  obtain ⟨hAC, hB, hcross⟩ := h
  rw [List.pairwise_append] at hAC
  obtain ⟨hA, hC, hac⟩ := hAC
  rw [List.pairwise_append]
  refine ⟨?_, hB, ?_⟩
  · rw [List.pairwise_append]
    refine ⟨hA, ?_, ?_⟩
    · rw [List.pairwise_append]
      refine ⟨hC, by simp, ?_⟩
      intro a ha b hb
      rw [List.mem_singleton] at hb
      subst hb
      exact (hv a (List.mem_append.mpr (Or.inl (List.mem_append.mpr (Or.inr ha))))).1
    · intro a ha b hb
      rcases List.mem_append.mp hb with hb2 | hb2
      · exact hac a ha b hb2
      · rw [List.mem_singleton] at hb2
        subst hb2
        exact (hv a (List.mem_append.mpr (Or.inl (List.mem_append.mpr (Or.inl ha))))).1
  · intro a ha b hb
    rcases List.mem_append.mp ha with ha2 | ha2
    · exact hcross a (List.mem_append.mpr (Or.inl ha2)) b hb
    · rcases List.mem_append.mp ha2 with ha3 | ha3
      · exact hcross a (List.mem_append.mpr (Or.inr ha3)) b hb
      · rw [List.mem_singleton] at ha3
        subst ha3
        exact (hv b (List.mem_append.mpr (Or.inr hb))).2

theorem reach_uniq {tbl : CHash V} (h : Reach tbl) : Consistent tbl →
    List.Pairwise (fun a b => ¬(tbl.match_ a b = true ∧ tbl.match_ b a = true))
      (chash_traverse tbl) := by
  induction h with
  | init hash m hn =>
      intro _
      unfold chash_traverse chash_init
      simp only [List.map_replicate]
      rw [show slotChain (some ([] : Chain V)) = [] from rfl,
        flatten_replicate_nil]
      exact List.Pairwise.nil
  | insert hr heq ih =>
      rename_i tbl0 tbl2 d ok r
      intro hcons2
      have hf := insert_fields heq
      have hcons : Consistent tbl0 := by
        intro a b hab
        have hab2 : tbl2.match_ a b = true := by rw [hf.2.2]; exact hab
        have h2 := hcons2 a b hab2
        rw [hf.2.1] at h2
        exact h2
      have hP : Placed tbl0 := (reach_inv hr).2.2
      have hpair := ih hcons
      rcases insert_inv heq with rfl | ⟨v, chain, -, hslot, hff, -, -, rfl⟩
      · exact hpair
      · obtain ⟨A, B, h1, h2⟩ := table_set_decomp (some (chain ++ [v])) hslot
        unfold chash_traverse at hpair ⊢
        simp only []
        rw [h2]
        rw [h1] at hpair
        simp only [slotChain, Option.getD_some] at hpair ⊢
        have hall : ∀ u ∈ chain, tbl0.match_ v u = false :=
          chainFindFirst_eq_none.mp hff
        have hnomatch : ∀ w, w ∈ A ++ chain ++ B → tbl0.match_ v w = false := by
          intro w hw
          by_contra hmt
          simp only [Bool.not_eq_false] at hmt
          have hwmem : w ∈ (tbl0.table.map slotChain).flatten := by
            rw [h1]
            simpa [slotChain] using hw
          obtain ⟨j, cj, hj, hwc⟩ := mem_flatten_table.mp hwmem
          have hhash : tbl0.hash v = tbl0.hash w := hcons v w hmt
          have hjb : cBucket (tbl0.hash w) tbl0.buckets = j := hP j cj hj w hwc
          rw [← hhash] at hjb
          rw [← hjb] at hj
          rw [hslot] at hj
          simp only [Option.some.injEq] at hj
          subst hj
          exact absurd (hall w hwc) (by simp [hmt])
        exact pairwise_insert_middle hpair (by
          intro w hw
          constructor
          · intro hcon
            exact absurd (hnomatch w hw) (by simp [hcon.2])
          · intro hcon
            exact absurd (hnomatch w hw) (by simp [hcon.1]))
  | remove hr heq ih =>
      rename_i tbl0 d out
      intro hcons2
      have hf := remove_fields heq
      have hcons : Consistent tbl0 := by
        intro a b hab
        have hab2 : out.tbl.match_ a b = true := by rw [hf.2.2]; exact hab
        have h2 := hcons2 a b hab2
        rw [hf.2.1] at h2
        exact h2
      have hpair := ih hcons
      rcases remove_inv heq with he | ⟨i, pre, w0, post, -, hslot, he⟩
      · rw [he]
        exact hpair
      · rw [he]
        obtain ⟨A, B, h1, h2⟩ := table_set_decomp (some (pre ++ post)) hslot
        unfold chash_traverse at hpair ⊢
        simp only []
        rw [h2]
        rw [h1] at hpair
        simp only [slotChain, Option.getD_some] at hpair ⊢
        refine List.Pairwise.sublist ?_ hpair
        have hinner : List.Sublist (pre ++ post) (pre ++ w0 :: post) :=
          (List.Sublist.refl pre).append (List.sublist_cons_self w0 post)
        exact ((List.Sublist.refl A).append hinner).append (List.Sublist.refl B)

/-- C5 (amended): for every table reachable from construction whose match
predicate is consistent with its hash function, (a) if the table already
stores a value match-equivalent to `v`, then `chash_insert` returns
`AlreadyPresent` (1) and performs no mutation — the very same table is
returned — and (b) no two stored values are mutually match-equivalent.
Without the consistency hypothesis the claim is false, see the
counterexample. -/
theorem chash_insert_uniqueness {tbl : CHash V} (hr : Reach tbl)
    (hcons : Consistent tbl) :
    (∀ v ok, (∃ w ∈ chash_traverse tbl, tbl.match_ v w = true) →
      chash_insert tbl (some v) ok = some (1, tbl)) ∧
    List.Pairwise (fun a b => ¬(tbl.match_ a b = true ∧ tbl.match_ b a = true))
      (chash_traverse tbl) := by
  refine ⟨?_, reach_uniq hr hcons⟩
  intro v ok hex
  obtain ⟨w, hw, hm⟩ := hex
  have hP : Placed tbl := (reach_inv hr).2.2
  have hw2 : w ∈ (tbl.table.map slotChain).flatten := hw
  obtain ⟨j, cj, hj, hwc⟩ := mem_flatten_table.mp hw2
  have hslotv : tbl.table[cBucket (tbl.hash v) tbl.buckets]? = some (some cj) := by
    have hhash : tbl.hash v = tbl.hash w := hcons v w hm
    have hjb : cBucket (tbl.hash w) tbl.buckets = j := hP j cj hj w hwc
    rw [hhash, hjb]
    exact hj
  obtain ⟨u, hu⟩ := chainFindFirst_of_mem hwc hm
  have hlook : chash_lookup tbl (some v) = some (1, some u) := by
    rw [chash_lookup, hslotv]
    simp only []
    rw [hu]
  rw [chash_insert, hlook]
  simp only []
  rw [if_pos (by decide)]

/-- Witness for C5 at the reachable table holding the single value 1, with
consistent strategies (identity hash, integer equality match). -/
theorem chash_insert_uniqueness_witness :
    (∀ v ok, (∃ w ∈ chash_traverse cTbl1, cTbl1.match_ v w = true) →
      chash_insert cTbl1 (some v) ok = some (1, cTbl1)) ∧
    List.Pairwise
      (fun a b => ¬(cTbl1.match_ a b = true ∧ cTbl1.match_ b a = true))
      (chash_traverse cTbl1) := by
  have h0 : Reach cTbl0 :=
    Reach.init (fun v => v) (fun a b => decide (a = b)) (by decide)
  have h1 : chash_insert cTbl0 (some 1) true = some (0, cTbl1) := by rfl
  exact chash_insert_uniqueness (Reach.insert h0 h1)
    (fun a b hab => congrArg cTbl1.hash (of_decide_eq_true hab))

/-- Counterexample to C5 as stated (without requiring `match` to be
consistent with `hash`): on the reachable table `cTblX1` — built by
inserting 0 into a fresh 2-bucket table whose match predicate is
constantly true while the hash is the identity — the value 1 is
match-equivalent to the stored value 0, yet inserting 1 returns 0
(Inserted, not 1 = AlreadyPresent) and mutates the table, after which the
two stored values 0 and 1 are mutually match-equivalent. -/
theorem chash_insert_uniqueness_cex :
    chash_insert cTblX (some 0) true = some (0, cTblX1) ∧
    (0 : Int) ∈ chash_traverse cTblX1 ∧ cTblX1.match_ 1 0 = true ∧
    chash_insert cTblX1 (some 1) true = some (0, cTblX2) ∧
    cTblX2.size ≠ cTblX1.size ∧
    chash_traverse cTblX2 = [0, 1] ∧
    cTblX2.match_ 0 1 = true ∧ cTblX2.match_ 1 0 = true :=
  ⟨rfl, by decide, rfl, rfl, by decide, rfl, rfl, rfl⟩

end ChainHash
